import Mathlib

/-!
Verification of the LRU cache engine

A shallow embedding of the cache engine in `include/lru/internal/base-cache.hpp`
(class `LRU::Internal::BaseCache`) and of the legacy class in
`include/lru/internal/abstract-cache.hpp` (class `LRU::AbstractCache`).

Modelling conventions:

* The hash index `_cache` (a `std::unordered_map<Key, Information>`) is an
  association list `List (K × V)`.  Hash order is unspecified in the source,
  so new entries are appended; the order-iterator field of `Information` is
  represented implicitly: because every key has exactly one node in the
  recency list (invariant I3), the node an `Information.order` iterator
  points to is exactly the unique node of `_order` holding the key of that entry,
  so `_order.erase(information.order)` is modelled as erasing that key and its
  node from the order list.
* The recency queue `_order` (a `std::list<Key>`) is a `List K`: front =
  head = eviction candidate, back = most recently promoted.
* `_last_accessed` is an `Option (K × V)`: the slot caches a key together
  with the value of the `Information` it points into.
* Statistics are an optional event log: `some evs` when a hook is attached,
  each event being `(key, isHit)`.
* Partial operations (`std::list::front` on an empty list, dereferencing an
  end iterator) return `none`: a `none` result marks an execution that is
  undefined behaviour in the C++ source.
-/

set_option autoImplicit false
set_option linter.unusedSectionVars false

namespace LRUSpec

/-- Error taxonomy of the library (`LRU::Error::KeyNotFound`,
`LRU::Error::NotMonitoring`). -/
inductive CacheError where
  | KeyNotFound
  | NotMonitoring
  deriving DecidableEq, Repr

variable {K V : Type} [DecidableEq K] [DecidableEq V]

/-- Embeds `std::unordered_map::find` on the association-list model: the value
stored under key `k`, if any. -/
def lookupList (m : List (K × V)) (k : K) : Option V :=
  match m with
  | [] => none
  | (k', v) :: rest => if k' = k then some v else lookupList rest k

/-- Embeds `std::unordered_map::erase(key)` on the association-list model: remove
the entry with key `k` (keys are unique in a map, so removing the first
occurrence removes the entry). -/
def removeKey (m : List (K × V)) (k : K) : List (K × V) :=
  match m with
  | [] => []
  | (k', v) :: rest => if k' = k then rest else (k', v) :: removeKey rest k

/-- Overwriting the `value` member of the `Information` stored under key `k`
(`iterator->second.value = new_value` in `_move_to_front`). -/
def updateValue (m : List (K × V)) (k : K) (v : V) : List (K × V) :=
  match m with
  | [] => []
  | (k', v') :: rest =>
    if k' = k then (k', v) :: rest else (k', v') :: updateValue rest k v

/-- State of a `BaseCache`: the hash index `_cache`, the recency queue
`_order`, the last-accessed slot `_last_accessed`, the optional statistics
hook `_stats`, and `_capacity`. -/
structure Cache (K V : Type) where
  cache : List (K × V)
  order : List K
  lastAccessed : Option (K × V)
  stats : Option (List (K × Bool))
  capacity : Nat
  deriving DecidableEq, Repr

namespace Cache

/-- Embeds `BaseCache(capacity, hash, key_equal)`: empty index, empty queue,
invalid last-accessed slot, no statistics hook. -/
def mkCache (capacity : Nat) : Cache K V :=
  { cache := [], order := [], lastAccessed := none, stats := none
    capacity := capacity }

/-- Embeds `BaseCache::size()`: the size of the hash index. -/
def size (c : Cache K V) : Nat :=
  c.cache.length

/-- Embeds `BaseCache::is_full()`: `size() == _capacity`. -/
def is_full (c : Cache K V) : Bool :=
  size c = c.capacity

/-- Embeds `BaseCache::is_empty()`: `size() == 0`. -/
def is_empty (c : Cache K V) : Bool :=
  size c = 0

/-- Embeds `BaseCache::is_monitoring()`: whether a statistics hook is attached. -/
def is_monitoring (c : Cache K V) : Bool :=
  c.stats.isSome

/-- Modelled from the spec: `StatisticsMutator::register_hit` (the files
`statistics.hpp` / `statistics-mutator.hpp` are not under `src/`).  Per
§4.1/§4.6 the hook records one hit event keyed by the lookup key. -/
def register_hit (stats : Option (List (K × Bool))) (k : K) :
    Option (List (K × Bool)) :=
  match stats with
  | some evs => some (evs ++ [(k, true)])
  | none => none

/-- Modelled from the spec: `StatisticsMutator::register_miss`, recording
one miss event keyed by the lookup key. -/
def register_miss (stats : Option (List (K × Bool))) (k : K) :
    Option (List (K × Bool)) :=
  match stats with
  | some evs => some (evs ++ [(k, false)])
  | none => none

/-- Embeds `BaseCache::_register_hit_if_monitoring`: forward one hit event to the
hook when attached (`register_hit` is a no-op on a detached hook). -/
def register_hit_if_monitoring (c : Cache K V) (k : K) : Cache K V :=
  { c with stats := register_hit c.stats k }

/-- Embeds `BaseCache::_register_miss_if_monitoring`: forward one miss event to
the hook when attached. -/
def register_miss_if_monitoring (c : Cache K V) (k : K) : Cache K V :=
  { c with stats := register_miss c.stats k }

/-- Modelled from the spec: `LastAccessed::operator==(key)` (the file
`last-accessed.hpp` is not under `src/`).  Per §2 the slot is a single
optional cached reference; it matches a key iff it is populated with that
key. -/
def key_is_last_accessed (c : Cache K V) (k : K) : Bool :=
  match c.lastAccessed with
  | some (lk, _) => lk = k
  | none => false

/-- Modelled from the spec: the `find(key)` of the concrete cache (declared pure
virtual at base-cache.hpp:425-426, its implementation is not under `src/`).
Spec §4.1 step 2: probe the hash index; on hit, update the last-accessed
slot to this entry and notify one hit event; on miss, notify one miss event
and return the not-found (end) iterator. -/
def find (c : Cache K V) (k : K) : Cache K V × Option V :=
  match lookupList c.cache k with
  | some v =>
    ({ c with lastAccessed := some (k, v), stats := register_hit c.stats k },
     some v)
  | none =>
    ({ c with stats := register_miss c.stats k }, none)

/-- Embeds `BaseCache::contains(key)` (base-cache.hpp:382-395): last-accessed fast
path registering a hit, else `find`; on a `find` hit the last-accessed slot
is (re)assigned to the found entry. -/
def contains (c : Cache K V) (k : K) : Cache K V × Bool :=
  if key_is_last_accessed c k then
    (register_hit_if_monitoring c k, true)
  else
    match find c k with
    | (c', some v) => ({ c' with lastAccessed := some (k, v) }, true)
    | (c', none) => (c', false)

/-- Embeds `BaseCache::lookup(key)` (base-cache.hpp:397-409): last-accessed fast
path registering a hit and returning the cached value, else `find`; a miss
throws `LRU::Error::KeyNotFound`. -/
def lookup (c : Cache K V) (k : K) : Cache K V × Except CacheError V :=
  match c.lastAccessed with
  | some (lk, lv) =>
    if lk = k then
      (register_hit_if_monitoring c k, Except.ok lv)
    else
      match find c k with
      | (c', some v) => (c', Except.ok v)
      | (c', none) => (c', Except.error CacheError.KeyNotFound)
  | none =>
    match find c k with
    | (c', some v) => (c', Except.ok v)
    | (c', none) => (c', Except.error CacheError.KeyNotFound)

/-- Embeds `BaseCache::_erase(MapConstIterator)` / `_erase(key, information)`
(base-cache.hpp:669-687): invalidate the last-accessed slot if it points at
the erased entry, erase the node of the entry from the recency queue, erase the
entry from the hash index. -/
def erase_entry (c : Cache K V) (k : K) : Cache K V :=
  { c with
    lastAccessed :=
      if key_is_last_accessed c k then none else c.lastAccessed
    order := c.order.erase k
    cache := removeKey c.cache k }

/-- Embeds `BaseCache::_erase_lru()` (base-cache.hpp:665-667):
`_erase(_cache.find(_order.front()))`.  `_order.front()` on an empty queue
and dereferencing an end iterator of `_cache` are undefined behaviour in
the C++ source; both are modelled as `none`. -/
def erase_lru (c : Cache K V) : Option (Cache K V) :=
  match c.order with
  | [] => none
  | f :: _ =>
    match lookupList c.cache f with
    | some _ => some (erase_entry c f)
    | none => none

/-- Embeds `BaseCache::_move_to_front(iterator, new_value)` (base-cache.hpp:
652-663): erase the old recency node of the entry, insert its key at the back of
the queue, overwrite the stored value, point the last-accessed slot at the
entry. -/
def move_to_front (c : Cache K V) (k : K) (v : V) : Cache K V :=
  { c with
    order := c.order.erase k ++ [k]
    cache := updateValue c.cache k v
    lastAccessed := some (k, v) }

/-- The absent-key branch of `BaseCache::insert` after the capacity check:
append the key at the back of the recency queue, emplace the entry into the
hash index, point the last-accessed slot at the new entry. -/
def insert_new (c : Cache K V) (k : K) (v : V) : Cache K V :=
  { c with
    order := c.order ++ [k]
    cache := c.cache ++ [(k, v)]
    lastAccessed := some (k, v) }

/-- Embeds `BaseCache::insert(key, value)` (base-cache.hpp:436-459).  Returns the
`was_inserted` flag of the `InsertionResult` (`true` = fresh insertion, `false`
= replacement); `none` marks an execution that is undefined behaviour in
the source (eviction from an empty recency queue). -/
def insert (c : Cache K V) (k : K) (v : V) : Option (Cache K V × Bool) :=
  match lookupList c.cache k with
  | some _ => some (move_to_front c k v, false)
  | none =>
    match (if is_full c then erase_lru c else some c) with
    | some c₁ => some (insert_new c₁ k v, true)
    | none => none

/-- Embeds `BaseCache::emplace(key, value)` (base-cache.hpp:481-519): the same
algorithm as `insert` with the key and value constructed from argument
tuples. -/
def emplace (c : Cache K V) (k : K) (v : V) : Option (Cache K V × Bool) :=
  match lookupList c.cache k with
  | some _ => some (move_to_front c k v, false)
  | none =>
    match (if is_full c then erase_lru c else some c) with
    | some c₁ => some (insert_new c₁ k v, true)
    | none => none

/-- Embeds `BaseCache::erase(key)` (base-cache.hpp:521-536): if the last-accessed
slot names the key, erase through the cached entry of the slot; else probe the
hash index and erase if found.  Returns whether anything was removed. -/
def erase (c : Cache K V) (k : K) : Cache K V × Bool :=
  match c.lastAccessed with
  | some (lk, _) =>
    if lk = k then
      (erase_entry c k, true)
    else
      match lookupList c.cache k with
      | some _ => (erase_entry c k, true)
      | none => (c, false)
  | none =>
    match lookupList c.cache k with
    | some _ => (erase_entry c k, true)
    | none => (c, false)

/-- Embeds `BaseCache::clear()` (base-cache.hpp:556-560): clear the hash index,
clear the recency queue, invalidate the last-accessed slot. -/
def clear (c : Cache K V) : Cache K V :=
  { c with cache := [], order := [], lastAccessed := none }

/-- The `while (size() > target) _erase_lru();` loops of
`BaseCache::shrink` and `BaseCache::capacity(new_capacity)`.  Each
successful `_erase_lru` removes one entry, so `size` steps of fuel always
suffice; `none` marks an undefined `_erase_lru`. -/
def evict_down (fuel : Nat) (c : Cache K V) (target : Nat) :
    Option (Cache K V) :=
  match fuel with
  | 0 => if size c ≤ target then some c else none
  | fuel' + 1 =>
    if size c ≤ target then some c
    else
      match erase_lru c with
      | some c' => evict_down fuel' c' target
      | none => none

/-- Embeds `BaseCache::shrink(new_size)` (base-cache.hpp:562-572): no-op when
`new_size >= size()`; `clear()` when `new_size == 0`; else evict the
recency front until `size() == new_size`. -/
def shrink (c : Cache K V) (new_size : Nat) : Option (Cache K V) :=
  if size c ≤ new_size then some c
  else if new_size = 0 then some (clear c)
  else evict_down (size c) c new_size

/-- Embeds `BaseCache::capacity(new_capacity)` (base-cache.hpp:578-584): evict the
recency front while `size() > new_capacity`, then set `_capacity`. -/
def capacity_set (c : Cache K V) (new_capacity : Nat) :
    Option (Cache K V) :=
  match evict_down (size c) c new_capacity with
  | some c' => some { c' with capacity := new_capacity }
  | none => none

/-- Embeds `BaseCache::swap(other)` (base-cache.hpp:286-293): exchange `_order`,
`_cache`, `_last_accessed` and `_capacity` (the statistics hook `_stats` is
not exchanged). -/
def swap (a b : Cache K V) : Cache K V × Cache K V :=
  ({ a with order := b.order, cache := b.cache,
            lastAccessed := b.lastAccessed, capacity := b.capacity },
   { b with order := a.order, cache := a.cache,
            lastAccessed := a.lastAccessed, capacity := a.capacity })

/-- Embeds `BaseCache::statistics()` (base-cache.hpp:633-645): the attached hook,
or `LRU::Error::NotMonitoring` when none is attached. -/
def statistics (c : Cache K V) : Except CacheError (List (K × Bool)) :=
  match c.stats with
  | some evs => Except.ok evs
  | none => Except.error CacheError.NotMonitoring

/-- Embeds `std::unordered_map::operator==` on the association-list model: equal
sets of entries, order-independent.  Modelled from the spec for the
`Information` mapped type (the file `information.hpp` is not under `src/`):
per invariant I5, index equality is content equality, so `Information`s
compare by stored value. -/
def mapContentEq (m₁ m₂ : List (K × V)) : Bool :=
  m₁.all (fun p => lookupList m₂ p.1 = some p.2) &&
  m₂.all (fun p => lookupList m₁ p.1 = some p.2)

/-- Embeds `BaseCache::operator==` (base-cache.hpp:299-304): compare the hash
indices, then the recency queues; capacity, last-accessed slot and
statistics hook do not participate. -/
def cacheEq (c₁ c₂ : Cache K V) : Bool :=
  mapContentEq c₁.cache c₂.cache && decide (c₁.order = c₂.order)

end Cache

/-- State of the legacy `LRU::AbstractCache`
(abstract-cache.hpp): hash index, recency queue, last-accessed slot,
capacity. -/
structure AbstractCacheState (K V : Type) where
  cache : List (K × V)
  order : List K
  lastAccessed : Option (K × V)
  capacity : Nat
  deriving DecidableEq, Repr

/-- Embeds `AbstractCache::clear()` (abstract-cache.hpp:68-71): clears the hash
index and the recency queue — and nothing else; the last-accessed slot is
left untouched. -/
def AbstractCacheState.clear (s : AbstractCacheState K V) :
    AbstractCacheState K V :=
  { s with cache := [], order := [] }

/-- Structural well-formedness of a cache state (spec invariants I1, I3,
I4): the recency queue is a permutation of the hash-index keys (so both
hold the same entries, each exactly once), the index keys are distinct, and
a populated last-accessed slot caches a currently stored entry. -/
def WFc (c : Cache K V) : Prop :=
  c.order.Perm (c.cache.map Prod.fst) ∧
  (c.cache.map Prod.fst).Nodup ∧
  (∀ k v, c.lastAccessed = some (k, v) → lookupList c.cache k = some v)

/-- Full well-formedness: the capacity bound (invariant I2) on top of the
structural invariants. -/
def WF (c : Cache K V) : Prop :=
  Cache.size c ≤ c.capacity ∧ WFc c

/-- The cache states reachable from a freshly constructed cache through the
public mutating operations (`insert`, `emplace`, `erase`, `clear`,
`shrink`, capacity-set, `swap`).  Operations returning `none` are undefined
behaviour in the C++ source and yield no successor state. -/
inductive Reachable : Cache K V → Prop where
  | fresh (cap : Nat) : Reachable (Cache.mkCache cap)
  | insert_step {c c' : Cache K V} {k : K} {v : V} {b : Bool} :
      Reachable c → Cache.insert c k v = some (c', b) → Reachable c'
  | emplace_step {c c' : Cache K V} {k : K} {v : V} {b : Bool} :
      Reachable c → Cache.emplace c k v = some (c', b) → Reachable c'
  | erase_step {c : Cache K V} (k : K) :
      Reachable c → Reachable (Cache.erase c k).1
  | clear_step {c : Cache K V} :
      Reachable c → Reachable (Cache.clear c)
  | shrink_step {c c' : Cache K V} {n : Nat} :
      Reachable c → Cache.shrink c n = some c' → Reachable c'
  | capacity_step {c c' : Cache K V} {n : Nat} :
      Reachable c → Cache.capacity_set c n = some c' → Reachable c'
  | swap_fst {a b : Cache K V} :
      Reachable a → Reachable b → Reachable (Cache.swap a b).1
  | swap_snd {a b : Cache K V} :
      Reachable a → Reachable b → Reachable (Cache.swap a b).2

/-- A concrete full capacity-1 cache holding entry `5 ↦ 50`, used to
evaluate theorems on explicit inputs. -/
def cacheFull1 : Cache Nat Nat :=
  ⟨[(5, 50)], [5], none, none, 1⟩

/-- A concrete capacity-3 cache holding `1 ↦ 10` then `2 ↦ 20`, used to
evaluate theorems on explicit inputs. -/
def cachePair3 : Cache Nat Nat :=
  ⟨[(1, 10), (2, 20)], [1, 2], none, none, 3⟩

/-- A concrete monitored capacity-2 cache holding `1 ↦ 10`, with an empty
event log attached, used to evaluate theorems on explicit inputs. -/
def cacheMon : Cache Nat Nat :=
  ⟨[(1, 10)], [1], none, some [], 2⟩

/-- A concrete capacity-2 cache holding `4 ↦ 40` then `6 ↦ 60`, used to
evaluate theorems on explicit inputs. -/
def cacheTwo : Cache Nat Nat :=
  ⟨[(4, 40), (6, 60)], [4, 6], some (6, 60), none, 2⟩

/-- A cache with the same entries and recency order as `cacheTwo` but a
different hash order, capacity, last-accessed slot and statistics hook,
used to evaluate theorems on explicit inputs. -/
def cacheTwo' : Cache Nat Nat :=
  ⟨[(6, 60), (4, 40)], [4, 6], none, some [(9, false)], 7⟩

/-! ## Association-list lemmas -/

theorem lookupList_eq_none {m : List (K × V)} {k : K} :
    lookupList m k = none ↔ k ∉ m.map Prod.fst := by
  induction m with
  | nil => simp [lookupList]
  | cons p rest ih =>
    obtain ⟨k', v'⟩ := p
    by_cases h : k' = k
    · subst h
      simp [lookupList]
    · simp [lookupList, h, ih, Ne.symm h]

theorem mem_keys_of_lookup_some {m : List (K × V)} {k : K} {v : V}
    (h : lookupList m k = some v) : k ∈ m.map Prod.fst := by
  by_contra hk
  rw [← lookupList_eq_none] at hk
  simp [hk] at h

theorem exists_lookup_of_mem_keys {m : List (K × V)} {k : K}
    (h : k ∈ m.map Prod.fst) : ∃ v, lookupList m k = some v := by
  cases hv : lookupList m k with
  | none => exact absurd (lookupList_eq_none.1 hv) (not_not_intro h)
  | some v => exact ⟨v, rfl⟩

theorem mem_of_lookup_some {m : List (K × V)} {k : K} {v : V}
    (h : lookupList m k = some v) : (k, v) ∈ m := by
  induction m with
  | nil => simp [lookupList] at h
  | cons p rest ih =>
    obtain ⟨k', v'⟩ := p
    by_cases hp : k' = k
    · subst hp
      simp [lookupList] at h
      subst h
      exact List.mem_cons_self _ _
    · simp [lookupList, hp] at h
      exact List.mem_cons_of_mem _ (ih h)

theorem lookup_of_mem_nodup {m : List (K × V)} {k : K} {v : V}
    (hnd : (m.map Prod.fst).Nodup) (h : (k, v) ∈ m) :
    lookupList m k = some v := by
  induction m with
  | nil => simp at h
  | cons p rest ih =>
    obtain ⟨k', v'⟩ := p
    simp only [List.map_cons, List.nodup_cons] at hnd
    rcases List.mem_cons.1 h with heq | hmem
    · obtain ⟨h1, h2⟩ := Prod.mk.injEq .. ▸ heq.symm
      simp [lookupList, h1.symm, h2]
    · have hk : k' ≠ k := by
        intro hkk
        subst hkk
        exact hnd.1 (List.mem_map.2 ⟨(k', v), hmem, rfl⟩)
      simp [lookupList, hk, ih hnd.2 hmem]

theorem map_fst_removeKey (m : List (K × V)) (k : K) :
    (removeKey m k).map Prod.fst = (m.map Prod.fst).erase k := by
  induction m with
  | nil => simp [removeKey]
  | cons p rest ih =>
    obtain ⟨k', v'⟩ := p
    by_cases h : k' = k <;>
      simp [removeKey, h, List.erase_cons, ih]

theorem lookupList_removeKey_ne {m : List (K × V)} {k k' : K}
    (h : k' ≠ k) : lookupList (removeKey m k) k' = lookupList m k' := by
  induction m with
  | nil => simp [removeKey]
  | cons p rest ih =>
    obtain ⟨k₁, v₁⟩ := p
    by_cases h1 : k₁ = k
    · subst h1
      simp [removeKey, lookupList, Ne.symm h]
    · by_cases h2 : k₁ = k' <;> simp [removeKey, lookupList, h, h1, h2, ih]

theorem lookupList_removeKey_self {m : List (K × V)} {k : K}
    (hnd : (m.map Prod.fst).Nodup) : lookupList (removeKey m k) k = none := by
  induction m with
  | nil => simp [removeKey, lookupList]
  | cons p rest ih =>
    obtain ⟨k', v'⟩ := p
    simp only [List.map_cons, List.nodup_cons] at hnd
    by_cases h : k' = k
    · subst h
      simp only [removeKey, if_pos rfl]
      rw [lookupList_eq_none]
      exact hnd.1
    · simp [removeKey, lookupList, h, ih hnd.2]

theorem length_removeKey_of_mem {m : List (K × V)} {k : K}
    (h : k ∈ m.map Prod.fst) : (removeKey m k).length + 1 = m.length := by
  induction m with
  | nil => simp at h
  | cons p rest ih =>
    obtain ⟨k', v'⟩ := p
    by_cases hp : k' = k
    · simp [removeKey, hp]
    · simp only [List.map_cons, List.mem_cons] at h
      rcases h with h | h
      · exact absurd h.symm hp
      · simp [removeKey, hp, ih h]

theorem map_fst_updateValue (m : List (K × V)) (k : K) (v : V) :
    (updateValue m k v).map Prod.fst = m.map Prod.fst := by
  induction m with
  | nil => simp [updateValue]
  | cons p rest ih =>
    obtain ⟨k', v'⟩ := p
    by_cases h : k' = k <;> simp [updateValue, h, ih]

theorem lookupList_updateValue_self {m : List (K × V)} {k : K} {v w : V}
    (h : lookupList m k = some w) :
    lookupList (updateValue m k v) k = some v := by
  induction m with
  | nil => simp [lookupList] at h
  | cons p rest ih =>
    obtain ⟨k', v'⟩ := p
    by_cases hp : k' = k
    · simp [updateValue, lookupList, hp]
    · simp only [lookupList, if_neg hp] at h
      simp [updateValue, lookupList, hp, ih h]

theorem lookupList_updateValue_ne {m : List (K × V)} {k k' : K} {v : V}
    (h : k' ≠ k) :
    lookupList (updateValue m k v) k' = lookupList m k' := by
  induction m with
  | nil => simp [updateValue]
  | cons p rest ih =>
    obtain ⟨k₁, v₁⟩ := p
    by_cases h1 : k₁ = k
    · subst h1
      have : k₁ ≠ k' := fun hh => h hh.symm
      simp [updateValue, lookupList, this]
    · by_cases h2 : k₁ = k' <;> simp [updateValue, lookupList, h, h1, h2, ih]

theorem lookupList_append_sing_self {m : List (K × V)} {k : K} {v : V}
    (h : lookupList m k = none) :
    lookupList (m ++ [(k, v)]) k = some v := by
  induction m with
  | nil => simp [lookupList]
  | cons p rest ih =>
    obtain ⟨k', v'⟩ := p
    by_cases hp : k' = k
    · simp [lookupList, hp] at h
    · simp only [lookupList, if_neg hp] at h
      simp [lookupList, hp, ih h]

theorem lookupList_append_sing_ne {m : List (K × V)} {k k' : K} {v : V}
    (h : k' ≠ k) :
    lookupList (m ++ [(k, v)]) k' = lookupList m k' := by
  induction m with
  | nil => simp [lookupList, Ne.symm h]
  | cons p rest ih =>
    obtain ⟨k₁, v₁⟩ := p
    by_cases h1 : k₁ = k' <;> simp [lookupList, h1, ih]

/-! ## Preservation of the structural invariants -/

theorem is_full_iff {c : Cache K V} :
    Cache.is_full c = true ↔ Cache.size c = c.capacity := by
  simp [Cache.is_full]

theorem emplace_eq_insert (c : Cache K V) (k : K) (v : V) :
    Cache.emplace c k v = Cache.insert c k v := rfl

theorem wf_mkCache (cap : Nat) : WF (Cache.mkCache cap : Cache K V) := by
  refine ⟨?_, ?_, ?_, ?_⟩ <;> simp [WF, WFc, Cache.mkCache, Cache.size]

theorem wfc_erase_entry {c : Cache K V} {k : K} (h : WFc c)
    (hk : k ∈ c.cache.map Prod.fst) :
    WFc (Cache.erase_entry c k) ∧
      Cache.size (Cache.erase_entry c k) + 1 = Cache.size c ∧
      (Cache.erase_entry c k).capacity = c.capacity ∧
      (Cache.erase_entry c k).stats = c.stats := by
  obtain ⟨hperm, hnd, hslot⟩ := h
  refine ⟨⟨?_, ?_, ?_⟩, ?_, rfl, rfl⟩
  · simpa [Cache.erase_entry, map_fst_removeKey] using hperm.erase k
  · simpa [Cache.erase_entry, map_fst_removeKey] using hnd.erase k
  · intro k' v' hsl
    simp only [Cache.erase_entry] at hsl ⊢
    split at hsl
    · cases hsl
    · rename_i hcond
      have hne : k' ≠ k := by
        intro hkk
        subst hkk
        simp [Cache.key_is_last_accessed, hsl] at hcond
      rw [lookupList_removeKey_ne hne]
      exact hslot k' v' hsl
  · simpa [Cache.erase_entry, Cache.size] using length_removeKey_of_mem hk

theorem wfc_erase_lru {c c' : Cache K V} (h : WFc c)
    (he : Cache.erase_lru c = some c') :
    WFc c' ∧ Cache.size c' + 1 = Cache.size c ∧
      c'.capacity = c.capacity ∧ c'.stats = c.stats ∧
      ∃ f rest, c.order = f :: rest ∧ c' = Cache.erase_entry c f := by
  cases horder : c.order with
  | nil => simp [Cache.erase_lru, horder] at he
  | cons f rest =>
    simp only [Cache.erase_lru, horder] at he
    cases hf : lookupList c.cache f with
    | none => simp only [hf] at he; cases he
    | some vf =>
      simp only [hf, Option.some_inj] at he
      subst he
      obtain ⟨h1, h2, h3, h4⟩ := wfc_erase_entry h (mem_keys_of_lookup_some hf)
      exact ⟨h1, h2, h3, h4, f, rest, rfl, rfl⟩

theorem wfc_insert_new {c : Cache K V} {k : K} {v : V} (h : WFc c)
    (habs : lookupList c.cache k = none) :
    WFc (Cache.insert_new c k v) ∧
      Cache.size (Cache.insert_new c k v) = Cache.size c + 1 ∧
      (Cache.insert_new c k v).capacity = c.capacity := by
  obtain ⟨hperm, hnd, hslot⟩ := h
  have hk : k ∉ c.cache.map Prod.fst := lookupList_eq_none.1 habs
  refine ⟨⟨?_, ?_, ?_⟩, ?_, rfl⟩
  · simpa [Cache.insert_new] using hperm.append (List.Perm.refl [k])
  · simp only [Cache.insert_new, List.map_append, List.map_cons, List.map_nil]
    exact (List.perm_append_singleton k _).nodup_iff.2 (List.nodup_cons.2 ⟨hk, hnd⟩)
  · intro k' v' hsl
    simp only [Cache.insert_new, Option.some_inj] at hsl
    obtain ⟨h1, h2⟩ := Prod.mk.injEq .. ▸ hsl.symm
    subst h1
    subst h2
    exact lookupList_append_sing_self habs
  · simp [Cache.insert_new, Cache.size]

theorem wfc_move_to_front {c : Cache K V} {k : K} {v w : V} (h : WFc c)
    (hpres : lookupList c.cache k = some w) :
    WFc (Cache.move_to_front c k v) ∧
      Cache.size (Cache.move_to_front c k v) = Cache.size c ∧
      (Cache.move_to_front c k v).capacity = c.capacity := by
  obtain ⟨hperm, hnd, hslot⟩ := h
  have hkkeys : k ∈ c.cache.map Prod.fst := mem_keys_of_lookup_some hpres
  have hkord : k ∈ c.order := hperm.mem_iff.2 hkkeys
  refine ⟨⟨?_, ?_, ?_⟩, ?_, rfl⟩
  · simp only [Cache.move_to_front, map_fst_updateValue]
    exact ((List.perm_append_singleton k _).trans
      (List.perm_cons_erase hkord).symm).trans hperm
  · simpa [Cache.move_to_front, map_fst_updateValue] using hnd
  · intro k' v' hsl
    simp only [Cache.move_to_front, Option.some_inj] at hsl
    obtain ⟨h1, h2⟩ := Prod.mk.injEq .. ▸ hsl.symm
    subst h1
    subst h2
    exact lookupList_updateValue_self hpres
  · have := congrArg List.length (map_fst_updateValue c.cache k v)
    simpa [Cache.move_to_front, Cache.size] using this

theorem wf_insert {c c' : Cache K V} {k : K} {v : V} {b : Bool} (h : WF c)
    (hi : Cache.insert c k v = some (c', b)) : WF c' := by
  obtain ⟨hcap, hwfc⟩ := h
  unfold Cache.insert at hi
  cases hp : lookupList c.cache k with
  | some w =>
    rw [hp, Option.some_inj, Prod.ext_iff] at hi
    obtain ⟨h1, h2⟩ := hi
    subst h1
    obtain ⟨hw, hs, hcp⟩ := wfc_move_to_front (w := w) hwfc hp
    exact ⟨by rw [hs, hcp]; exact hcap, hw⟩
  | none =>
    rw [hp] at hi
    cases hfull : Cache.is_full c with
    | false =>
      rw [hfull] at hi
      simp only [Bool.false_eq_true, if_false] at hi
      rw [Option.some_inj, Prod.ext_iff] at hi
      obtain ⟨h1, h2⟩ := hi
      subst h1
      obtain ⟨hw, hs, hcp⟩ := wfc_insert_new (v := v) hwfc hp
      have hlt : Cache.size c < c.capacity := by
        refine lt_of_le_of_ne hcap ?_
        intro heq
        rw [← is_full_iff] at heq
        rw [heq] at hfull
        cases hfull
      exact ⟨by rw [hs, hcp]; exact hlt, hw⟩
    | true =>
      rw [hfull] at hi
      simp only [if_true] at hi
      cases he : Cache.erase_lru c with
      | none => rw [he] at hi; cases hi
      | some c₁ =>
        rw [he] at hi
        rw [Option.some_inj, Prod.ext_iff] at hi
        obtain ⟨h1, h2⟩ := hi
        subst h1
        obtain ⟨hw1, hs1, hcp1, _, f, rest, hord, hc₁⟩ := wfc_erase_lru hwfc he
        have habs1 : lookupList c₁.cache k = none := by
          rw [lookupList_eq_none]
          intro hmem
          refine absurd ?_ (lookupList_eq_none.1 hp)
          subst hc₁
          simp only [Cache.erase_entry, map_fst_removeKey] at hmem
          exact List.mem_of_mem_erase hmem
        obtain ⟨hw, hs, hcp⟩ := wfc_insert_new (v := v) hw1 habs1
        have hsz : Cache.size (Cache.insert_new c₁ k v) = Cache.size c := by
          rw [hs]
          omega
        refine ⟨?_, hw⟩
        rw [hsz, hcp, hcp1]
        exact hcap

theorem wf_erase {c : Cache K V} (k : K) (h : WF c) :
    WF (Cache.erase c k).1 := by
  obtain ⟨hcap, hwfc⟩ := h
  have herase_entry : k ∈ c.cache.map Prod.fst → WF (Cache.erase_entry c k) := by
    intro hk
    obtain ⟨hw, hs, hcp, _⟩ := wfc_erase_entry hwfc hk
    exact ⟨by rw [hcp]; omega, hw⟩
  unfold Cache.erase
  cases hla : c.lastAccessed with
  | some p =>
    obtain ⟨lk, lv⟩ := p
    by_cases hlk : lk = k
    · subst hlk
      simp only [if_pos rfl]
      exact herase_entry (mem_keys_of_lookup_some (hwfc.2.2 lk lv hla))
    · simp only [if_neg hlk]
      cases hp : lookupList c.cache k with
      | some w => exact herase_entry (mem_keys_of_lookup_some hp)
      | none => exact ⟨hcap, hwfc⟩
  | none =>
    cases hp : lookupList c.cache k with
    | some w => exact herase_entry (mem_keys_of_lookup_some hp)
    | none => exact ⟨hcap, hwfc⟩

theorem wf_clear (c : Cache K V) : WF (Cache.clear c) := by
  refine ⟨?_, ?_, ?_, ?_⟩ <;> simp [Cache.clear, Cache.size, WFc]

theorem wfc_evict_down (fuel : Nat) {target : Nat} :
    ∀ {c c' : Cache K V}, WFc c →
      Cache.evict_down fuel c target = some c' →
      WFc c' ∧ Cache.size c' ≤ target ∧
        c'.capacity = c.capacity ∧ c'.stats = c.stats := by
  induction fuel with
  | zero =>
    intro c c' h he
    unfold Cache.evict_down at he
    split at he
    · rw [Option.some_inj] at he
      subst he
      rename_i hle
      exact ⟨h, hle, rfl, rfl⟩
    · cases he
  | succ n ih =>
    intro c c' h he
    unfold Cache.evict_down at he
    split at he
    · rw [Option.some_inj] at he
      subst he
      rename_i hle
      exact ⟨h, hle, rfl, rfl⟩
    · cases hel : Cache.erase_lru c with
      | none => rw [hel] at he; cases he
      | some c₁ =>
        rw [hel] at he
        obtain ⟨hw1, _, hcp1, hst1, _⟩ := wfc_erase_lru h hel
        obtain ⟨hw, hle, hcp, hst⟩ := ih hw1 he
        exact ⟨hw, hle, hcp.trans hcp1, hst.trans hst1⟩

theorem wf_shrink {c c' : Cache K V} {n : Nat} (h : WF c)
    (hs : Cache.shrink c n = some c') : WF c' := by
  obtain ⟨hcap, hwfc⟩ := h
  unfold Cache.shrink at hs
  split at hs
  · rw [Option.some_inj] at hs
    subst hs
    exact ⟨hcap, hwfc⟩
  · split at hs
    · rw [Option.some_inj] at hs
      subst hs
      exact wf_clear c
    · obtain ⟨hw, hle, hcp, _⟩ := wfc_evict_down _ hwfc hs
      rename_i hgt _
      refine ⟨?_, hw⟩
      rw [hcp]
      omega

theorem wf_capacity_set {c c' : Cache K V} {n : Nat} (h : WF c)
    (hs : Cache.capacity_set c n = some c') : WF c' := by
  obtain ⟨hcap, hwfc⟩ := h
  unfold Cache.capacity_set at hs
  cases he : Cache.evict_down (Cache.size c) c n with
  | none => rw [he] at hs; cases hs
  | some c₁ =>
    rw [he] at hs
    rw [Option.some_inj] at hs
    subst hs
    obtain ⟨⟨hp, hnd, hsl⟩, hle, _, _⟩ := wfc_evict_down _ hwfc he
    exact ⟨hle, hp, hnd, hsl⟩

theorem wf_swap {a b : Cache K V} (ha : WF a) (hb : WF b) :
    WF (Cache.swap a b).1 ∧ WF (Cache.swap a b).2 := by
  obtain ⟨hacap, hap, hand, hasl⟩ := ha
  obtain ⟨hbcap, hbp, hbnd, hbsl⟩ := hb
  exact ⟨⟨hbcap, hbp, hbnd, hbsl⟩, ⟨hacap, hap, hand, hasl⟩⟩

theorem wf_reachable {c : Cache K V} (h : Reachable c) : WF c := by
  induction h with
  | fresh cap => exact wf_mkCache cap
  | insert_step _ he ih => exact wf_insert ih he
  | emplace_step _ he ih => exact wf_insert ih (by rw [← emplace_eq_insert]; exact he)
  | erase_step k _ ih => exact wf_erase k ih
  | clear_step _ _ => exact wf_clear _
  | shrink_step _ he ih => exact wf_shrink ih he
  | capacity_step _ he ih => exact wf_capacity_set ih he
  | swap_fst _ _ iha ihb => exact (wf_swap iha ihb).1
  | swap_snd _ _ iha ihb => exact (wf_swap iha ihb).2

/-! ## Claims -/

/-- C1: after every public mutating operation (insert, emplace, erase,
clear, shrink, capacity-set, swap), starting from any freshly constructed
cache — i.e. in every reachable cache state — `size() <= capacity()` holds
and the hash index and the recency sequence contain exactly the same number
of entries. -/
theorem C1_size_invariants {K V : Type} [DecidableEq K] [DecidableEq V]
    (c : Cache K V) (h : Reachable c) :
    Cache.size c ≤ c.capacity ∧ c.cache.length = c.order.length := by
  obtain ⟨hcap, hperm, _, _⟩ := wf_reachable h
  refine ⟨hcap, ?_⟩
  simpa using hperm.length_eq.symm

/-- Witness for C1: the invariants evaluated on the concrete cache reached
by `insert(1, 10)` from a fresh capacity-2 cache. -/
theorem C1_size_invariants_witness :
    Cache.size (⟨[(1, 10)], [1], some (1, 10), none, 2⟩ : Cache Nat Nat) ≤
        (⟨[(1, 10)], [1], some (1, 10), none, 2⟩ : Cache Nat Nat).capacity ∧
      (⟨[(1, 10)], [1], some (1, 10), none, 2⟩ : Cache Nat Nat).cache.length =
        (⟨[(1, 10)], [1], some (1, 10), none, 2⟩ : Cache Nat Nat).order.length :=
  C1_size_invariants _
    (Reachable.insert_step (k := 1) (v := 10) (b := true)
      (Reachable.fresh 2) (by decide))

/-- C4 (code bug): for a cache constructed with capacity 0 the very first
insert of an absent key finds the cache full and runs
`_erase_lru() = _erase(_cache.find(_order.front()))` with `_order` empty:
`std::list::front()` on an empty list is undefined behaviour, so the insert
is not well-defined — there is no front entry to evict.  Evaluated on the
embedding, the eviction and the whole insert return `none`. -/
theorem C4_capacity_zero_insert_undefined :
    Cache.is_full (Cache.mkCache 0 : Cache Nat Nat) = true ∧
      (Cache.mkCache 0 : Cache Nat Nat).order = [] ∧
      Cache.erase_lru (Cache.mkCache 0 : Cache Nat Nat) = none ∧
      Cache.insert (Cache.mkCache 0 : Cache Nat Nat) 7 7 = none := by
  decide

/-- C5: `contains(key)` and `lookup(key)` leave the recency sequence
entirely unchanged (for every cache state and key, present or not): neither
the fast last-accessed path nor the hash-index path touches `_order`, so
the queried key keeps its recency position and only re-insertion promotes
an entry. -/
theorem C5_lookup_preserves_recency {K V : Type} [DecidableEq K]
    [DecidableEq V] (c : Cache K V) (k : K) :
    (Cache.contains c k).1.order = c.order ∧
      (Cache.lookup c k).1.order = c.order := by
  constructor
  · unfold Cache.contains Cache.find
    by_cases h : Cache.key_is_last_accessed c k
    · simp [h, Cache.register_hit_if_monitoring]
    · cases hp : lookupList c.cache k <;>
        simp [h, hp, Cache.register_miss_if_monitoring]
  · unfold Cache.lookup Cache.find
    cases hla : c.lastAccessed with
    | some p =>
      obtain ⟨lk, lv⟩ := p
      by_cases h : lk = k
      · simp [h, Cache.register_hit_if_monitoring]
      · cases hp : lookupList c.cache k <;> simp [h, hp]
    | none =>
      cases hp : lookupList c.cache k <;> simp [hp]

/-- C7 (code bug): `BaseCache::clear()` empties both structures and
invalidates the last-accessed slot, but the also-cited
`AbstractCache::clear()` (abstract-cache.hpp:68-71) only clears the two
containers: evaluated on a state whose slot names the (removed) key 1, the
slot still names that key after `clear()`, violating the claim and
invariant I4. -/
theorem C7_clear_last_accessed :
    (Cache.clear (⟨[(1, 10)], [1], some (1, 10), none, 4⟩ :
        Cache Nat Nat)).lastAccessed = none ∧
      Cache.size (Cache.clear (⟨[(1, 10)], [1], some (1, 10), none, 4⟩ :
        Cache Nat Nat)) = 0 ∧
      (AbstractCacheState.clear (⟨[(1, 10)], [1], some (1, 10), 4⟩ :
        AbstractCacheState Nat Nat)).cache = [] ∧
      (AbstractCacheState.clear (⟨[(1, 10)], [1], some (1, 10), 4⟩ :
        AbstractCacheState Nat Nat)).order = [] ∧
      (AbstractCacheState.clear (⟨[(1, 10)], [1], some (1, 10), 4⟩ :
        AbstractCacheState Nat Nat)).lastAccessed = some (1, 10) := by
  decide

/-- C2 counterexample: on a freshly constructed capacity-0 cache the key 1
is absent and `size() == capacity()`, yet the insert does not evict a front
entry and insert — there is no front entry, the eviction is undefined
(`_order.front()` on an empty list), so the claimed behaviour fails. -/
theorem C2_counterexample :
    Cache.size (Cache.mkCache 0 : Cache Nat Nat) =
        (Cache.mkCache 0 : Cache Nat Nat).capacity ∧
      lookupList (Cache.mkCache 0 : Cache Nat Nat).cache 1 = none ∧
      Cache.insert (Cache.mkCache 0 : Cache Nat Nat) 1 10 = none := by
  decide

/-- C2 (amended): for a well-formed cache and an absent key, `insert`
reports an insertion and appends the key at the newest end; when
`size() < capacity()` it evicts nothing and grows the size by exactly 1;
when `size() == capacity()` — provided the capacity is positive — it first
evicts exactly the front entry of the recency sequence and the final size
is unchanged. -/
theorem C2_insert_new_key {K V : Type} [DecidableEq K] [DecidableEq V]
    (c : Cache K V) (k : K) (v : V) (hwf : WF c)
    (habs : lookupList c.cache k = none) :
    (Cache.size c < c.capacity →
      ∃ c', Cache.insert c k v = some (c', true) ∧
        Cache.size c' = Cache.size c + 1 ∧
        c'.order = c.order ++ [k] ∧
        (∀ k' v', lookupList c.cache k' = some v' →
          lookupList c'.cache k' = some v')) ∧
    (Cache.size c = c.capacity → 0 < c.capacity →
      ∃ c' f rest, c.order = f :: rest ∧
        Cache.insert c k v = some (c', true) ∧
        Cache.size c' = Cache.size c ∧
        c'.order = rest ++ [k] ∧
        lookupList c'.cache f = none ∧
        (∀ k' v', k' ≠ f → lookupList c.cache k' = some v' →
          lookupList c'.cache k' = some v')) := by
  obtain ⟨hcap, hperm, hnd, hslot⟩ := hwf
  constructor
  · intro hlt
    have hnotfull : Cache.is_full c = false := by
      rw [Bool.eq_false_iff]
      intro hf
      exact absurd (is_full_iff.1 hf) (Nat.ne_of_lt hlt)
    refine ⟨Cache.insert_new c k v, ?_, ?_, rfl, ?_⟩
    · simp [Cache.insert, habs, hnotfull]
    · simp [Cache.insert_new, Cache.size]
    · intro k' v' hv'
      have hne : k' ≠ k := by
        intro h
        subst h
        rw [habs] at hv'
        cases hv'
      rw [show (Cache.insert_new c k v).cache = c.cache ++ [(k, v)] from rfl]
      rw [lookupList_append_sing_ne hne]
      exact hv'
  · intro hfull hpos
    have hfullb : Cache.is_full c = true := is_full_iff.2 hfull
    have hlen : 0 < c.order.length := by
      have := hperm.length_eq
      simp only [List.length_map] at this
      rw [this]
      show 0 < c.cache.length
      rw [show c.cache.length = Cache.size c from rfl, hfull]
      exact hpos
    cases horder : c.order with
    | nil => rw [horder] at hlen; cases hlen
    | cons f rest =>
      have hf_mem : f ∈ c.cache.map Prod.fst := by
        refine hperm.mem_iff.1 ?_
        rw [horder]
        exact List.mem_cons_self f rest
      obtain ⟨vf, hvf⟩ := exists_lookup_of_mem_keys hf_mem
      have hfk : f ≠ k := by
        intro h
        subst h
        rw [habs] at hvf
        cases hvf
      have herase : Cache.erase_lru c = some (Cache.erase_entry c f) := by
        simp [Cache.erase_lru, horder, hvf]
      refine ⟨Cache.insert_new (Cache.erase_entry c f) k v, f, rest,
        rfl, ?_, ?_, ?_, ?_, ?_⟩
      · simp [Cache.insert, habs, hfullb, herase]
      · have h1 := (wfc_erase_entry ⟨hperm, hnd, hslot⟩ hf_mem).2.1
        have h2 : Cache.size (Cache.insert_new (Cache.erase_entry c f) k v) =
            Cache.size (Cache.erase_entry c f) + 1 := by
          simp [Cache.insert_new, Cache.size]
        omega
      · show (Cache.erase_entry c f).order ++ [k] = rest ++ [k]
        rw [show (Cache.erase_entry c f).order = c.order.erase f from rfl]
        rw [horder, List.erase_cons_head]
      · rw [show (Cache.insert_new (Cache.erase_entry c f) k v).cache =
            removeKey c.cache f ++ [(k, v)] from rfl]
        rw [lookupList_append_sing_ne hfk]
        exact lookupList_removeKey_self hnd
      · intro k' v' hne hv'
        have hnek : k' ≠ k := by
          intro h
          subst h
          rw [habs] at hv'
          cases hv'
        rw [show (Cache.insert_new (Cache.erase_entry c f) k v).cache =
            removeKey c.cache f ++ [(k, v)] from rfl]
        rw [lookupList_append_sing_ne hnek, lookupList_removeKey_ne hne]
        exact hv'

/-- Witness for C2 (amended): evaluated on the concrete full capacity-1
cache `cacheFull1`, inserting the absent key 6: the front entry 5 is
evicted, the size stays 1, and 6 sits at the newest end. -/
theorem C2_insert_new_key_witness :
    ∃ c' f rest, cacheFull1.order = f :: rest ∧
      Cache.insert cacheFull1 6 60 = some (c', true) ∧
      Cache.size c' = Cache.size cacheFull1 ∧
      c'.order = rest ++ [6] ∧
      lookupList c'.cache f = none ∧
      (∀ k' v', k' ≠ f → lookupList cacheFull1.cache k' = some v' →
        lookupList c'.cache k' = some v') :=
  (C2_insert_new_key cacheFull1 6 60
      ⟨by decide, by decide, by decide, by intro a b h; simp [cacheFull1] at h⟩
      (by decide)).2
    (by decide) (by decide)

/-- C3: `insert(key, value)` for a key already present never changes
`size()`, never evicts any entry (every key keeps its mapping except the
re-inserted one, whose value is overwritten), moves that key to the newest
end of the recency sequence, and reports a replacement (`was_inserted =
false`). -/
theorem C3_insert_existing {K V : Type} [DecidableEq K] [DecidableEq V]
    (c : Cache K V) (k : K) (v w : V) (hwf : WF c)
    (hpres : lookupList c.cache k = some w) :
    ∃ c', Cache.insert c k v = some (c', false) ∧
      Cache.size c' = Cache.size c ∧
      lookupList c'.cache k = some v ∧
      (∀ k', k' ≠ k → lookupList c'.cache k' = lookupList c.cache k') ∧
      c'.order = c.order.erase k ++ [k] ∧
      c'.order.getLast? = some k ∧
      (∀ k', k' ∈ c'.order ↔ k' ∈ c.order) := by
  obtain ⟨hcap, hperm, hnd, hslot⟩ := hwf
  have hkord : k ∈ c.order :=
    hperm.mem_iff.2 (mem_keys_of_lookup_some hpres)
  refine ⟨Cache.move_to_front c k v, ?_, ?_, ?_, ?_, rfl, ?_, ?_⟩
  · simp [Cache.insert, hpres]
  · exact (wfc_move_to_front ⟨hperm, hnd, hslot⟩ hpres).2.1
  · exact lookupList_updateValue_self hpres
  · intro k' hne
    exact lookupList_updateValue_ne hne
  · rw [show (Cache.move_to_front c k v).order = c.order.erase k ++ [k]
      from rfl]
    exact List.getLast?_concat _
  · intro k'
    rw [show (Cache.move_to_front c k v).order = c.order.erase k ++ [k]
      from rfl]
    by_cases hk' : k' = k
    · subst hk'
      simp [hkord]
    · simp only [List.mem_append, List.mem_singleton, hk', or_false]
      exact List.mem_erase_of_ne hk'

/-- Witness for C3: evaluated on the concrete cache `cachePair3`,
re-inserting key 1 with value 99. -/
theorem C3_insert_existing_witness :
    ∃ c', Cache.insert cachePair3 1 99 = some (c', false) ∧
      Cache.size c' = Cache.size cachePair3 ∧
      lookupList c'.cache 1 = some 99 ∧
      (∀ k', k' ≠ 1 → lookupList c'.cache k' = lookupList cachePair3.cache k') ∧
      c'.order = cachePair3.order.erase 1 ++ [1] ∧
      c'.order.getLast? = some 1 ∧
      (∀ k', k' ∈ c'.order ↔ k' ∈ cachePair3.order) :=
  C3_insert_existing cachePair3 1 99 10
    ⟨by decide, by decide, by decide, by intro a b h; simp [cachePair3] at h⟩
    (by decide)

/-- C6: while a statistics hook is attached (event log `evs`), every call
to `contains(key)` or `lookup(key)` appends exactly one event for the
queried key — one hit event when the key is present, one miss event when
it is absent — on both the last-accessed fast path and the hash-index
path. -/
theorem C6_exactly_one_event {K V : Type} [DecidableEq K] [DecidableEq V]
    (c : Cache K V) (k : K) (evs : List (K × Bool)) (hwf : WF c)
    (hmon : c.stats = some evs) :
    ((∃ v, lookupList c.cache k = some v) →
      (Cache.contains c k).1.stats = some (evs ++ [(k, true)]) ∧
      (Cache.lookup c k).1.stats = some (evs ++ [(k, true)])) ∧
    (lookupList c.cache k = none →
      (Cache.contains c k).1.stats = some (evs ++ [(k, false)]) ∧
      (Cache.lookup c k).1.stats = some (evs ++ [(k, false)])) := by
  obtain ⟨_, _, _, hslot⟩ := hwf
  constructor
  · rintro ⟨v, hv⟩
    constructor
    · unfold Cache.contains Cache.find
      by_cases h : Cache.key_is_last_accessed c k
      · simp [h, Cache.register_hit_if_monitoring, Cache.register_hit, hmon]
      · simp [h, hv, Cache.register_hit, hmon]
    · unfold Cache.lookup Cache.find
      cases hla : c.lastAccessed with
      | some p =>
        obtain ⟨lk, lv⟩ := p
        by_cases hlk : lk = k
        · simp [hlk, Cache.register_hit_if_monitoring, Cache.register_hit,
            hmon]
        · simp [hlk, hv, Cache.register_hit, hmon]
      | none => simp [hv, Cache.register_hit, hmon]
  · intro habs
    have hnla : Cache.key_is_last_accessed c k = false := by
      cases hla : c.lastAccessed with
      | none => simp [Cache.key_is_last_accessed, hla]
      | some p =>
        obtain ⟨lk, lv⟩ := p
        simp only [Cache.key_is_last_accessed, hla, decide_eq_false_iff_not]
        intro hlk
        subst hlk
        have := hslot lk lv hla
        rw [habs] at this
        cases this
    constructor
    · unfold Cache.contains Cache.find
      simp [hnla, habs, Cache.register_miss, hmon]
    · unfold Cache.lookup Cache.find
      cases hla : c.lastAccessed with
      | some p =>
        obtain ⟨lk, lv⟩ := p
        have hlk : lk ≠ k := by
          intro h
          subst h
          have := hslot lk lv hla
          rw [habs] at this
          cases this
        simp [hlk, habs, Cache.register_miss, hmon]
      | none => simp [habs, Cache.register_miss, hmon]

/-- Witness for C6: evaluated on the concrete monitored cache `cacheMon`
(empty event log): querying the present key 1 records exactly one hit
event, and querying the absent key 9 records exactly one miss event. -/
theorem C6_exactly_one_event_witness :
    ((∃ v, lookupList cacheMon.cache 1 = some v) →
      (Cache.contains cacheMon 1).1.stats = some [(1, true)] ∧
      (Cache.lookup cacheMon 1).1.stats = some [(1, true)]) ∧
    (lookupList cacheMon.cache 9 = none →
      (Cache.contains cacheMon 9).1.stats = some [(9, false)] ∧
      (Cache.lookup cacheMon 9).1.stats = some [(9, false)]) :=
  ⟨(C6_exactly_one_event cacheMon 1 []
      ⟨by decide, by decide, by decide, by intro a b h; simp [cacheMon] at h⟩
      (by decide)).1,
   (C6_exactly_one_event cacheMon 9 []
      ⟨by decide, by decide, by decide, by intro a b h; simp [cacheMon] at h⟩
      (by decide)).2⟩

/-- C8: `erase(key)` of an absent key returns `false` and leaves the cache
completely unchanged; `erase(key)` of a present key returns `true`, removes
exactly that one entry from the hash index and the recency sequence, and
decreases `size()` by exactly 1. -/
theorem C8_erase {K V : Type} [DecidableEq K] [DecidableEq V]
    (c : Cache K V) (k : K) (hwf : WF c) :
    (lookupList c.cache k = none → Cache.erase c k = (c, false)) ∧
    (∀ w, lookupList c.cache k = some w →
      (Cache.erase c k).2 = true ∧
      Cache.size (Cache.erase c k).1 + 1 = Cache.size c ∧
      lookupList (Cache.erase c k).1.cache k = none ∧
      (∀ k', k' ≠ k →
        lookupList (Cache.erase c k).1.cache k' = lookupList c.cache k') ∧
      (Cache.erase c k).1.order = c.order.erase k) := by
  obtain ⟨hcap, hperm, hnd, hslot⟩ := hwf
  constructor
  · intro habs
    unfold Cache.erase
    cases hla : c.lastAccessed with
    | some p =>
      obtain ⟨lk, lv⟩ := p
      have hlk : lk ≠ k := by
        intro h
        subst h
        have := hslot lk lv hla
        rw [habs] at this
        cases this
      simp [hlk, habs]
    | none => simp [habs]
  · intro w hw
    have hres : Cache.erase c k = (Cache.erase_entry c k, true) := by
      unfold Cache.erase
      cases hla : c.lastAccessed with
      | some p =>
        obtain ⟨lk, lv⟩ := p
        by_cases hlk : lk = k
        · simp [hlk]
        · simp [hlk, hw]
      | none => simp [hw]
    rw [hres]
    have hk : k ∈ c.cache.map Prod.fst := mem_keys_of_lookup_some hw
    refine ⟨rfl, (wfc_erase_entry ⟨hperm, hnd, hslot⟩ hk).2.1, ?_, ?_, rfl⟩
    · exact lookupList_removeKey_self hnd
    · intro k' hne
      exact lookupList_removeKey_ne hne

/-- Witness for C8: evaluated on the concrete cache `cacheTwo`: erasing the
absent key 9 returns `false` and changes nothing; erasing the present key 4
returns `true`, removes it from both structures and shrinks the size to 1. -/
theorem C8_erase_witness :
    (Cache.erase cacheTwo 9 = (cacheTwo, false)) ∧
      ((Cache.erase cacheTwo 4).2 = true ∧
        Cache.size (Cache.erase cacheTwo 4).1 + 1 = Cache.size cacheTwo ∧
        lookupList (Cache.erase cacheTwo 4).1.cache 4 = none ∧
        (Cache.erase cacheTwo 4).1.order = cacheTwo.order.erase 4) := by
  have hwf : WF cacheTwo := by
    refine ⟨by decide, by decide, by decide, ?_⟩
    intro a b h
    simp only [cacheTwo, Option.some_inj] at h
    obtain ⟨h1, h2⟩ := Prod.mk.injEq .. ▸ h.symm
    subst h1
    subst h2
    decide
  have h9 := (C8_erase cacheTwo 9 hwf).1 (by decide)
  have h4 := (C8_erase cacheTwo 4 hwf).2 40 (by decide)
  exact ⟨h9, h4.1, h4.2.1, h4.2.2.1, h4.2.2.2.2⟩

/-- C9: `lookup(key)` of an absent key fails with `KeyNotFound` and leaves
the cache state (hash index, recency sequence, last-accessed slot,
capacity) unchanged; `statistics()` with no hook attached fails with
`NotMonitoring` (it reads no state and mutates nothing). -/
theorem C9_failures {K V : Type} [DecidableEq K] [DecidableEq V]
    (c : Cache K V) (k : K) (hwf : WF c)
    (habs : lookupList c.cache k = none)
    (c₀ : Cache K V) (h₀ : c₀.stats = none) :
    (Cache.lookup c k).2 = Except.error CacheError.KeyNotFound ∧
      (Cache.lookup c k).1.cache = c.cache ∧
      (Cache.lookup c k).1.order = c.order ∧
      (Cache.lookup c k).1.lastAccessed = c.lastAccessed ∧
      (Cache.lookup c k).1.capacity = c.capacity ∧
      Cache.statistics c₀ = Except.error CacheError.NotMonitoring := by
  obtain ⟨_, _, _, hslot⟩ := hwf
  have hstat : Cache.statistics c₀ = Except.error CacheError.NotMonitoring :=
    by simp [Cache.statistics, h₀]
  have hres : Cache.lookup c k =
      ({ c with stats := Cache.register_miss c.stats k },
        Except.error CacheError.KeyNotFound) := by
    unfold Cache.lookup Cache.find
    cases hla : c.lastAccessed with
    | some p =>
      obtain ⟨lk, lv⟩ := p
      have hlk : lk ≠ k := by
        intro h
        subst h
        have := hslot lk lv hla
        rw [habs] at this
        cases this
      simp [hlk, habs]
    | none => simp [habs]
  rw [hres]
  exact ⟨rfl, rfl, rfl, rfl, rfl, hstat⟩

/-- Witness for C9: evaluated on the concrete cache `cachePair3`: looking
up the absent key 9 yields `KeyNotFound` with the cache state unchanged,
and `statistics()` on the unmonitored `cacheFull1` yields `NotMonitoring`. -/
theorem C9_failures_witness :
    (Cache.lookup cachePair3 9).2 = Except.error CacheError.KeyNotFound ∧
      (Cache.lookup cachePair3 9).1.cache = cachePair3.cache ∧
      (Cache.lookup cachePair3 9).1.order = cachePair3.order ∧
      (Cache.lookup cachePair3 9).1.lastAccessed = cachePair3.lastAccessed ∧
      (Cache.lookup cachePair3 9).1.capacity = cachePair3.capacity ∧
      Cache.statistics cacheFull1 = Except.error CacheError.NotMonitoring :=
  C9_failures cachePair3 9
    ⟨by decide, by decide, by decide, by intro a b h; simp [cachePair3] at h⟩
    (by decide) cacheFull1 (by decide)

/-- C10: cache equality compares only hash-index content and
recency-sequence order: two well-formed caches holding equal key/value
pairs (pointwise equal lookups) in identical recency order compare equal,
regardless of their capacities, last-accessed slots and statistics hooks. -/
theorem C10_equality_ignores_capacity {K V : Type} [DecidableEq K]
    [DecidableEq V] (c₁ c₂ : Cache K V) (h₁ : WF c₁) (h₂ : WF c₂)
    (hsame : ∀ q, lookupList c₁.cache q = lookupList c₂.cache q)
    (horder : c₁.order = c₂.order) :
    Cache.cacheEq c₁ c₂ = true := by
  obtain ⟨_, _, hnd₁, _⟩ := h₁
  obtain ⟨_, _, hnd₂, _⟩ := h₂
  unfold Cache.cacheEq Cache.mapContentEq
  rw [horder]
  simp only [Bool.and_eq_true, List.all_eq_true, decide_eq_true_eq]
  refine ⟨⟨?_, ?_⟩, trivial⟩
  · intro p hp
    rw [← hsame]
    exact lookup_of_mem_nodup hnd₁ (by obtain ⟨a, b⟩ := p; exact hp)
  · intro p hp
    rw [hsame]
    exact lookup_of_mem_nodup hnd₂ (by obtain ⟨a, b⟩ := p; exact hp)

/-- Witness for C10: `cacheTwo` and `cacheTwo'` hold the same two entries
in the same recency order but differ in hash order, capacity (2 vs 7),
last-accessed slot and statistics hook — and still compare equal. -/
theorem C10_equality_ignores_capacity_witness :
    cacheTwo.capacity ≠ cacheTwo'.capacity ∧
      Cache.cacheEq cacheTwo cacheTwo' = true := by
  have hwf : WF cacheTwo := by
    refine ⟨by decide, by decide, by decide, ?_⟩
    intro a b h
    simp only [cacheTwo, Option.some_inj] at h
    obtain ⟨h1, h2⟩ := Prod.mk.injEq .. ▸ h.symm
    subst h1
    subst h2
    decide
  have hwf' : WF cacheTwo' := by
    refine ⟨by decide, by decide, by decide, ?_⟩
    intro a b h
    simp [cacheTwo'] at h
  refine ⟨by decide, ?_⟩
  refine C10_equality_ignores_capacity cacheTwo cacheTwo' hwf hwf' ?_ (by decide)
  intro q
  by_cases h4 : q = 4
  · subst h4
    decide
  · by_cases h6 : q = 6
    · subst h6
      decide
    · simp [cacheTwo, cacheTwo', lookupList, h4, h6, Ne.symm h4, Ne.symm h6]

end LRUSpec
